import Mathlib

set_option autoImplicit false

/-!
Verification development for the `vk-kv-storage` repository.

The repository's only source file is `src/conanfile.py`, a Conan build
recipe (class `KVStorage`).  The first part of this file embeds that
recipe: the settings tuple, the generators tuple, the `requirements`
method (a fixed list of `self.requires` calls) and the `configure`
method (a fixed sequence of assignments to `self.options["boost"]`
fields).  Neither method reads `self.settings`, so both are embedded as
functions of a `Settings` record that ignore their argument — exactly
the dependence on the build configuration the Python code has.

The storage-engine claims (durability, snapshot isolation, tombstones,
compaction) concern engine code that the repository does not include;
those parts are modelled from the specification, and each such
definition is marked `Modelled from the spec:`.
-/

/-- Values of the four Conan build settings declared by the recipe
(`settings = "os", "compiler", "build_type", "arch"`); a Conan profile
supplies one such tuple per build configuration. -/
structure Settings where
  os : String
  compiler : String
  build_type : String
  arch : String
deriving DecidableEq, Repr

namespace KVStorage

/-- Embeds `settings = "os", "compiler", "build_type", "arch"` from
`src/conanfile.py` line 4: the names of the declared settings. -/
def settings : List String := ["os", "compiler", "build_type", "arch"]

/-- Embeds `generators = "CMakeDeps", "CMakeToolchain"` from
`src/conanfile.py` line 5. -/
def generators : List String := ["CMakeDeps", "CMakeToolchain"]

/-- Embeds the `requirements` method of `src/conanfile.py` (lines 7–9):
the references passed to `self.requires`, in call order.  The method
body does not read `self.settings`, hence the `Settings` argument is
unused. -/
def requirements (_cfg : Settings) : List String :=
  ["boost/1.88.0", "gtest/1.16.0"]

/-- Embeds the `configure` method of `src/conanfile.py` (lines 11–43):
the assignments `self.options["boost"].without_<name> = <bool>`, in
source order, as pairs of option name and assigned value.  The method
body does not read `self.settings`, hence the `Settings` argument is
unused. -/
def configure (_cfg : Settings) : List (String × Bool) :=
  [ ("without_atomic", false)
  , ("without_chrono", false)
  , ("without_container", false)
  , ("without_context", false)
  , ("without_date_time", false)
  , ("without_exception", false)
  , ("without_filesystem", false)
  , ("without_system", false)
  , ("without_thread", false)
  , ("without_coroutine", true)
  , ("without_fiber", true)
  , ("without_graph", true)
  , ("without_graph_parallel", true)
  , ("without_iostreams", true)
  , ("without_json", true)
  , ("without_locale", true)
  , ("without_log", true)
  , ("without_math", true)
  , ("without_mpi", true)
  , ("without_nowide", true)
  , ("without_program_options", true)
  , ("without_python", true)
  , ("without_random", true)
  , ("without_regex", true)
  , ("without_serialization", true)
  , ("without_stacktrace", true)
  , ("without_test", true)
  , ("without_timer", true)
  , ("without_type_erasure", true)
  , ("without_url", true)
  , ("without_wave", true)
  ]

/-- Looks up the value `configure` assigns to a boost option under a
given build configuration (each option is assigned exactly once, so the
association-list lookup is the final state of `self.options["boost"]`). -/
def boostOpt (cfg : Settings) (name : String) : Option Bool :=
  (configure cfg).lookup name

/-- Embeds the class declaration itself: `KVStorage(ConanFile)` in
`src/conanfile.py` defines exactly these members, in source order — two
class attributes and two methods, and nothing else. -/
def classMembers : List String :=
  ["settings", "generators", "requirements", "configure"]

/-- Embeds the base class of the `KVStorage` class declaration. -/
def baseClass : String := "ConanFile"

end KVStorage

/-- One example build configuration, used for concrete evaluations. -/
def cfgLinux : Settings :=
  { os := "Linux", compiler := "gcc", build_type := "Release", arch := "x86_64" }

namespace Engine

/-- Modelled from the spec: the engine source is absent from the
repository, so the data model of §3 is reconstructed here.  An entry is
`(key, value | tombstone, sequence number)`; `val = none` is the
tombstone marker. -/
structure Entry where
  key : String
  val : Option String
  seq : Nat
deriving DecidableEq, Repr

/-- Modelled from the spec: result of a point lookup (§6, §7) — the
engine distinguishes an explicit not-found from an error
(`NotFoundError` is "normal, not a failure"). -/
inductive GetResult where
  | found (v : String)
  | notFound
  | err (msg : String)
deriving DecidableEq, Repr

/-- Modelled from the spec: engine state as of §2/§3 — the last
assigned sequence number (volatile), the Manifest's last durable
sequence number, the active WAL segment contents (append order), the
active MemTable contents (apply order), the flushed sorted tables
(newest first) and the sequence bounds of the open snapshots. -/
structure EngineState where
  seq : Nat
  lastDurable : Nat
  wal : List Entry
  mem : List Entry
  tables : List (List Entry)
  snaps : List Nat
deriving DecidableEq, Repr

/-- Modelled from the spec: the state of a freshly opened engine on an
empty directory. -/
def init : EngineState := ⟨0, 0, [], [], [], []⟩

/-- Modelled from the spec: the foreground operations of §6 that mutate
engine state (reads are pure and modelled separately). -/
inductive Op where
  | put (k v : String)
  | del (k : String)
  | flush
  | snapshot
deriving DecidableEq, Repr

/-- Modelled from the spec: one step of the write path (§2, §4.1, §4.2,
§4.4).  A `put`/`delete` takes the next sequence number, appends the
entry to the WAL and then applies it to the MemTable before returning;
a flush moves the MemTable to a new sorted table, records the durable
sequence number in the Manifest and deletes the consumed WAL segment
(§4.1 rotation); `snapshot` pins the current sequence number. -/
def step (s : EngineState) : Op → EngineState
  | .put k v =>
      { s with seq := s.seq + 1,
               wal := s.wal ++ [⟨k, some v, s.seq + 1⟩],
               mem := s.mem ++ [⟨k, some v, s.seq + 1⟩] }
  | .del k =>
      { s with seq := s.seq + 1,
               wal := s.wal ++ [⟨k, none, s.seq + 1⟩],
               mem := s.mem ++ [⟨k, none, s.seq + 1⟩] }
  | .flush =>
      { s with lastDurable := s.seq, wal := [], mem := [],
               tables := s.mem :: s.tables }
  | .snapshot =>
      { s with snaps := s.seq :: s.snaps }

/-- Runs a sequence of foreground operations from the initial state. -/
def run (ops : List Op) : EngineState := ops.foldl step init

/-- Modelled from the spec: a crash loses the volatile state — the
in-memory MemTable and the in-memory sequence counter; the WAL, the
sorted tables and the Manifest are durable and survive (§4.1). -/
def crash (s : EngineState) : EngineState := { s with seq := 0, mem := [] }

/-- Largest sequence number occurring in a list of entries (0 when the
list is empty). -/
def maxSeq (l : List Entry) : Nat := l.foldr (fun e m => max e.seq m) 0

/-- Modelled from the spec: recovery at reopen (§4.1, invariant 2 of
§3) — replay the WAL records with sequence number greater than the
Manifest's last durable sequence number into a fresh MemTable (the
retained WAL holds exactly those records), and restore the sequence
counter from the Manifest and the replayed records. -/
def recover (s : EngineState) : EngineState :=
  { s with mem := s.wal, seq := max s.lastDurable (maxSeq s.wal) }

/-- Modelled from the spec: the entries a read can consult — the
MemTable first, then the sorted tables via the Manifest (§2); the
lookup below selects by highest sequence number, so the concatenation
order carries no weight. -/
def allEntries (s : EngineState) : List Entry := s.mem ++ s.tables.flatten

/-- Modelled from the spec: the read path's version selection (§3) —
among the entries for a key with sequence number at most the read's
bound, the one with the highest sequence number. -/
def lookupLE : List Entry → String → Nat → Option Entry
  | [], _, _ => none
  | e :: rest, k, bound =>
      if e.key = k ∧ e.seq ≤ bound then
        match lookupLE rest k bound with
        | none => some e
        | some a => if a.seq < e.seq then some e else some a
      else lookupLE rest k bound

/-- Modelled from the spec: the newest version of a key regardless of
any snapshot bound — the logical key→value mapping of a set of entries
reads off this entry (§3, §4.6). -/
def lookupNewest : List Entry → String → Option Entry
  | [], _ => none
  | e :: rest, k =>
      if e.key = k then
        match lookupNewest rest k with
        | none => some e
        | some a => if a.seq < e.seq then some e else some a
      else lookupNewest rest k

/-- Modelled from the spec: `get(key, snapshot?)` (§6) — without a
snapshot the read uses the latest committed sequence number; a
tombstone or an absent key yields the explicit not-found (§7). -/
def get (s : EngineState) (k : String) (snap : Option Nat) : GetResult :=
  match lookupLE (allEntries s) k (snap.getD s.seq) with
  | some e =>
      match e.val with
      | some v => .found v
      | none => .notFound
  | none => .notFound

/-- Modelled from the spec: `scan(start, end, snapshot?)` (§6) — the
live key/value pairs in the half-open range; absent and deleted keys
are simply not produced, never reported as errors (§7). -/
def scan (s : EngineState) (lo hi : String) (snap : Option Nat) :
    List (String × String) :=
  (((allEntries s).map (fun e => e.key)).dedup).filterMap (fun q =>
    if lo ≤ q ∧ q < hi then
      match get s q snap with
      | .found v => some (q, v)
      | _ => none
    else none)

/-- Restriction of an engine state to the writes with sequence number
at most `S`: the state a snapshot at `S` is entitled to observe. -/
def restrict (s : EngineState) (S : Nat) : EngineState :=
  { s with wal := s.wal.filter (fun e => e.seq ≤ S),
           mem := s.mem.filter (fun e => e.seq ≤ S),
           tables := s.tables.map (fun t => t.filter (fun e => e.seq ≤ S)) }

/-- Modelled from the spec: the compaction merge (§4.6) — a k-way merge
over the input entries keeping only the newest sequence number per key,
and dropping a tombstone once no older level retains the key (the
inputs here are the whole table set, so no older level exists) and the
tombstone is older than every open snapshot's sequence bound. -/
def compactRun (snaps : List Nat) (es : List Entry) : List Entry :=
  ((es.map (fun e => e.key)).dedup).filterMap (fun k =>
    match lookupNewest es k with
    | none => none
    | some e =>
        if e.val = none ∧ ∀ b ∈ snaps, e.seq < b then none else some e)

/-- Modelled from the spec: a full background compaction installing a
new Version (§4.4, §4.6) — the live sorted tables are merged into one
output table; the MemTable and WAL are untouched. -/
def compactState (s : EngineState) : EngineState :=
  { s with tables := [compactRun s.snaps s.tables.flatten] }

/-- Logical key→value mapping of a set of entries: the value of the
newest version, with tombstones and absent keys both reading as
not-found (`none`). -/
def tableGet (es : List Entry) (k : String) : Option String :=
  match lookupNewest es k with
  | some e => e.val
  | none => none

end Engine

/-- C1: for every build configuration, `requirements()` requires only
boost and gtest (in particular no database library), and `configure()`
enables the boost components atomic, thread and filesystem
(`without_* = False`). -/
theorem requirements_and_concurrency_profile (cfg : Settings) :
    KVStorage.requirements cfg = ["boost/1.88.0", "gtest/1.16.0"] ∧
    KVStorage.boostOpt cfg "without_atomic" = some false ∧
    KVStorage.boostOpt cfg "without_thread" = some false ∧
    KVStorage.boostOpt cfg "without_filesystem" = some false := by
  refine ⟨rfl, ?_, ?_, ?_⟩ <;> rfl

/-- C1 witness at a concrete build configuration. -/
theorem requirements_and_concurrency_profile_witness :
    KVStorage.requirements cfgLinux = ["boost/1.88.0", "gtest/1.16.0"] ∧
    KVStorage.boostOpt cfgLinux "without_atomic" = some false ∧
    KVStorage.boostOpt cfgLinux "without_thread" = some false ∧
    KVStorage.boostOpt cfgLinux "without_filesystem" = some false :=
  requirements_and_concurrency_profile cfgLinux

/-- C2: the sole source file defines a `ConanFile` subclass whose only
members are `settings`, `generators`, `requirements` and `configure`;
none of the engine operations `put`, `get`, `delete`, `scan`,
`snapshot`, `open` or `close` is defined. -/
theorem class_defines_only_build_configuration :
    KVStorage.baseClass = "ConanFile" ∧
    KVStorage.classMembers = ["settings", "generators", "requirements", "configure"] ∧
    ∀ m ∈ ["put", "get", "delete", "scan", "snapshot", "open", "close"],
      m ∉ KVStorage.classMembers := by
  refine ⟨rfl, rfl, ?_⟩
  decide

/-- C2 witness: the engine operations are concretely absent from the
class member list. -/
theorem class_defines_only_build_configuration_witness :
    "put" ∉ KVStorage.classMembers ∧ "open" ∉ KVStorage.classMembers :=
  ⟨class_defines_only_build_configuration.2.2 "put" (by decide),
   class_defines_only_build_configuration.2.2 "open" (by decide)⟩

/-- C3: in every build configuration, `configure()` enables boost
thread and atomic and disables the cooperative-scheduling components
coroutine and fiber. -/
theorem parallel_threading_model (cfg : Settings) :
    KVStorage.boostOpt cfg "without_thread" = some false ∧
    KVStorage.boostOpt cfg "without_atomic" = some false ∧
    KVStorage.boostOpt cfg "without_coroutine" = some true ∧
    KVStorage.boostOpt cfg "without_fiber" = some true := by
  refine ⟨?_, ?_, ?_, ?_⟩ <;> rfl

/-- C3 witness at a concrete build configuration. -/
theorem parallel_threading_model_witness :
    KVStorage.boostOpt cfgLinux "without_thread" = some false ∧
    KVStorage.boostOpt cfgLinux "without_atomic" = some false ∧
    KVStorage.boostOpt cfgLinux "without_coroutine" = some true ∧
    KVStorage.boostOpt cfgLinux "without_fiber" = some true :=
  parallel_threading_model cfgLinux

/-- C4: in every build configuration, `configure()` builds boost
without program_options and without log. -/
theorem cli_and_logging_out_of_scope (cfg : Settings) :
    KVStorage.boostOpt cfg "without_program_options" = some true ∧
    KVStorage.boostOpt cfg "without_log" = some true := by
  exact ⟨rfl, rfl⟩

/-- C4 witness at a concrete build configuration. -/
theorem cli_and_logging_out_of_scope_witness :
    KVStorage.boostOpt cfgLinux "without_program_options" = some true ∧
    KVStorage.boostOpt cfgLinux "without_log" = some true :=
  cli_and_logging_out_of_scope cfgLinux

/-- C9: in every build configuration, `requirements()` declares exactly
two dependencies, boost pinned at 1.88.0 and gtest pinned at 1.16.0,
with no version ranges (no `[` range syntax in any reference) and no
other requirements. -/
theorem requirements_exactly_two_pinned (cfg : Settings) :
    KVStorage.requirements cfg = ["boost/1.88.0", "gtest/1.16.0"] ∧
    (KVStorage.requirements cfg).length = 2 ∧
    ∀ r ∈ KVStorage.requirements cfg, '[' ∉ r.toList := by
  refine ⟨rfl, rfl, ?_⟩
  intro r hr
  simp only [KVStorage.requirements, List.mem_cons, List.not_mem_nil, or_false] at hr
  rcases hr with h | h <;> subst h <;> decide

/-- C9 witness at a concrete build configuration: both declared
references are range-free. -/
theorem requirements_exactly_two_pinned_witness :
    (KVStorage.requirements cfgLinux).length = 2 ∧
    '[' ∉ "boost/1.88.0".toList ∧ '[' ∉ "gtest/1.16.0".toList :=
  ⟨(requirements_exactly_two_pinned cfgLinux).2.1,
   (requirements_exactly_two_pinned cfgLinux).2.2 "boost/1.88.0" (by decide),
   (requirements_exactly_two_pinned cfgLinux).2.2 "gtest/1.16.0" (by decide)⟩

/-- C10 counterexample: `configure()` disables twenty-two boost
components, not twenty-one — the claim's count of the disabled
(`without_* = True`) assignments is wrong at any concrete build
configuration. -/
theorem configure_disabled_count_not_21 :
    ¬ ((KVStorage.configure cfgLinux).filter (fun p => p.2 = true)).length = 21 := by
  decide

/-- C10 (amended): `configure()` is deterministic and independent of
the build settings — any two instantiations produce the identical boost
option assignment: exactly the nine components atomic, chrono,
container, context, date_time, exception, filesystem, system and thread
enabled, and exactly the twenty-two listed components from coroutine
through wave disabled. -/
theorem configure_settings_independent (cfg cfg' : Settings) :
    KVStorage.configure cfg = KVStorage.configure cfg' ∧
    ((KVStorage.configure cfg).filter (fun p => p.2 = false)).map Prod.fst =
      [ "without_atomic", "without_chrono", "without_container", "without_context"
      , "without_date_time", "without_exception", "without_filesystem"
      , "without_system", "without_thread" ] ∧
    ((KVStorage.configure cfg).filter (fun p => p.2 = true)).map Prod.fst =
      [ "without_coroutine", "without_fiber", "without_graph"
      , "without_graph_parallel", "without_iostreams", "without_json"
      , "without_locale", "without_log", "without_math", "without_mpi"
      , "without_nowide", "without_program_options", "without_python"
      , "without_random", "without_regex", "without_serialization"
      , "without_stacktrace", "without_test", "without_timer"
      , "without_type_erasure", "without_url", "without_wave" ] := by
  refine ⟨rfl, ?_, ?_⟩ <;> rfl

/-- C10 witness at two concrete build configurations. -/
theorem configure_settings_independent_witness :
    KVStorage.configure cfgLinux =
      KVStorage.configure
        { os := "Windows", compiler := "msvc", build_type := "Debug", arch := "armv8" } ∧
    ((KVStorage.configure cfgLinux).filter (fun p => p.2 = false)).map Prod.fst =
      [ "without_atomic", "without_chrono", "without_container", "without_context"
      , "without_date_time", "without_exception", "without_filesystem"
      , "without_system", "without_thread" ] ∧
    ((KVStorage.configure cfgLinux).filter (fun p => p.2 = true)).map Prod.fst =
      [ "without_coroutine", "without_fiber", "without_graph"
      , "without_graph_parallel", "without_iostreams", "without_json"
      , "without_locale", "without_log", "without_math", "without_mpi"
      , "without_nowide", "without_program_options", "without_python"
      , "without_random", "without_regex", "without_serialization"
      , "without_stacktrace", "without_test", "without_timer"
      , "without_type_erasure", "without_url", "without_wave" ] :=
  configure_settings_independent cfgLinux
    { os := "Windows", compiler := "msvc", build_type := "Debug", arch := "armv8" }

namespace Engine

theorem maxSeq_append (l : List Entry) (e : Entry) :
    maxSeq (l ++ [e]) = max (maxSeq l) e.seq := by
  induction l with
  | nil => simp [maxSeq]
  | cons a t ih =>
      simp only [maxSeq, List.cons_append, List.foldr_cons] at *
      rw [ih]
      omega

/-- Invariant relating the volatile and the durable state: the active
WAL segment holds exactly the MemTable contents, and the sequence
counter is reconstructible from the Manifest's durable sequence number
and the WAL. -/
def walInv (s : EngineState) : Prop :=
  s.wal = s.mem ∧ max s.lastDurable (maxSeq s.wal) = s.seq ∧
    s.lastDurable ≤ s.seq

theorem walInv_init : walInv init := by
  refine ⟨rfl, ?_, Nat.le_refl 0⟩
  simp [init, maxSeq]

theorem walInv_step (s : EngineState) (op : Op) (h : walInv s) :
    walInv (step s op) := by
  obtain ⟨h1, h2, h3⟩ := h
  cases op with
  | put k v =>
      refine ⟨by simp [step, h1], ?_, ?_⟩ <;>
        simp only [step, maxSeq_append] <;> omega
  | del k =>
      refine ⟨by simp [step, h1], ?_, ?_⟩ <;>
        simp only [step, maxSeq_append] <;> omega
  | flush =>
      refine ⟨rfl, ?_, Nat.le_refl _⟩
      simp [step, maxSeq]
  | snapshot => exact ⟨h1, h2, h3⟩

theorem walInv_foldl (ops : List Op) :
    ∀ s : EngineState, walInv s → walInv (ops.foldl step s) := by
  induction ops with
  | nil => intro s h; exact h
  | cons op rest ih => intro s h; exact ih _ (walInv_step s op h)

theorem walInv_run (ops : List Op) : walInv (run ops) :=
  walInv_foldl ops init walInv_init

theorem recover_crash_eq (s : EngineState) (h : walInv s) :
    recover (crash s) = s := by
  obtain ⟨h1, h2, h3⟩ := h
  cases s
  simp only [recover, crash] at *
  simp_all

/-- C5: durability — for every sequence of acknowledged writes followed
by a crash after the WAL appends but before the MemTable flush,
reopening the engine (WAL replay) reconstructs the whole durable state
and in particular a MemTable identical to the pre-crash one for all
acknowledged writes. -/
theorem durability_recovery (ops : List Op) :
    recover (crash (run ops)) = run ops ∧
    (recover (crash (run ops))).mem = (run ops).mem := by
  have h := recover_crash_eq (run ops) (walInv_run ops)
  exact ⟨h, by rw [h]⟩

end Engine

namespace Engine

theorem lookupLE_filter (es : List Entry) (k : String) (S : Nat) :
    lookupLE (es.filter (fun e => e.seq ≤ S)) k S = lookupLE es k S := by
  induction es with
  | nil => rfl
  | cons e rest ih =>
      by_cases hs : e.seq ≤ S
      · rw [List.filter_cons_of_pos (by simpa using hs)]
        simp only [lookupLE, ih]
      · rw [List.filter_cons_of_neg (by simpa using hs)]
        have hc : ¬(e.key = k ∧ e.seq ≤ S) := fun h => hs h.2
        simp only [lookupLE, if_neg hc, ih]

theorem flatten_map_filter (p : Entry → Bool) (ls : List (List Entry)) :
    (ls.map (fun t => t.filter p)).flatten = ls.flatten.filter p := by
  induction ls with
  | nil => rfl
  | cons a t ih =>
      simp only [List.map_cons, List.flatten_cons, List.filter_append, ih]

theorem allEntries_restrict (s : EngineState) (S : Nat) :
    allEntries (restrict s S) = (allEntries s).filter (fun e => e.seq ≤ S) := by
  simp only [allEntries, restrict, List.filter_append, flatten_map_filter]

theorem get_restrict (s : EngineState) (k : String) (S : Nat) :
    get (restrict s S) k (some S) = get s k (some S) := by
  simp only [get, Option.getD_some, allEntries_restrict, lookupLE_filter]

/-- C6: snapshot isolation — a read bound to a snapshot taken at
sequence `S` never observes a write with sequence number greater than
`S` (it reads the same as on the state restricted to writes with
sequence number at most `S`); concretely, after `put("a","1")`,
`put("a","2")`, `snapshot()` pinning sequence 2, and `put("a","3")`,
an unbound `get("a")` returns `"3"` while `get("a", S2)` returns
`"2"`. -/
theorem snapshot_isolation (s : EngineState) (k : String) (S : Nat) :
    get s k (some S) = get (restrict s S) k (some S) ∧
    (run [.put "a" "1", .put "a" "2", .snapshot, .put "a" "3"]).snaps = [2] ∧
    get (run [.put "a" "1", .put "a" "2", .snapshot, .put "a" "3"]) "a" none
      = .found "3" ∧
    get (run [.put "a" "1", .put "a" "2", .snapshot, .put "a" "3"]) "a" (some 2)
      = .found "2" := by
  refine ⟨(get_restrict s k S).symm, rfl, ?_, ?_⟩ <;> decide

end Engine

namespace Engine

theorem lookupLE_mem (es : List Entry) (k : String) (bound : Nat) (e : Entry)
    (h : lookupLE es k bound = some e) :
    e ∈ es ∧ e.key = k ∧ e.seq ≤ bound := by
  induction es with
  | nil => cases h
  | cons a rest ih =>
      by_cases hc : a.key = k ∧ a.seq ≤ bound
      · cases hr : lookupLE rest k bound with
        | none =>
            simp only [lookupLE, if_pos hc, hr] at h
            obtain rfl := Option.some.inj h
            exact ⟨List.mem_cons_self _ _, hc.1, hc.2⟩
        | some b =>
            simp only [lookupLE, if_pos hc, hr] at h
            by_cases hlt : b.seq < a.seq
            · rw [if_pos hlt] at h
              obtain rfl := Option.some.inj h
              exact ⟨List.mem_cons_self _ _, hc.1, hc.2⟩
            · rw [if_neg hlt] at h
              obtain ⟨m1, m2, m3⟩ := ih (hr.trans h)
              exact ⟨List.mem_cons_of_mem a m1, m2, m3⟩
      · simp only [lookupLE, if_neg hc] at h
        obtain ⟨m1, m2, m3⟩ := ih h
        exact ⟨List.mem_cons_of_mem a m1, m2, m3⟩

theorem lookupNewest_mem (es : List Entry) (k : String) (e : Entry)
    (h : lookupNewest es k = some e) : e ∈ es ∧ e.key = k := by
  induction es with
  | nil => cases h
  | cons a rest ih =>
      by_cases hc : a.key = k
      · cases hr : lookupNewest rest k with
        | none =>
            simp only [lookupNewest, if_pos hc, hr] at h
            obtain rfl := Option.some.inj h
            exact ⟨List.mem_cons_self _ _, hc⟩
        | some b =>
            simp only [lookupNewest, if_pos hc, hr] at h
            by_cases hlt : b.seq < a.seq
            · rw [if_pos hlt] at h
              obtain rfl := Option.some.inj h
              exact ⟨List.mem_cons_self _ _, hc⟩
            · rw [if_neg hlt] at h
              obtain ⟨m1, m2⟩ := ih (hr.trans h)
              exact ⟨List.mem_cons_of_mem a m1, m2⟩
      · simp only [lookupNewest, if_neg hc] at h
        obtain ⟨m1, m2⟩ := ih h
        exact ⟨List.mem_cons_of_mem a m1, m2⟩

theorem lookupNewest_eq_none (es : List Entry) (k : String) :
    lookupNewest es k = none ↔ ∀ e ∈ es, e.key ≠ k := by
  induction es with
  | nil => simp [lookupNewest]
  | cons a rest ih =>
      constructor
      · intro h e he
        by_cases hak : a.key = k
        · exfalso
          cases hr : lookupNewest rest k with
          | none =>
              simp only [lookupNewest, if_pos hak, hr] at h
              exact Option.noConfusion h
          | some b =>
              simp only [lookupNewest, if_pos hak, hr] at h
              by_cases hlt : b.seq < a.seq
              · rw [if_pos hlt] at h; exact Option.noConfusion h
              · rw [if_neg hlt] at h; exact Option.noConfusion h
        · simp only [lookupNewest, if_neg hak] at h
          rcases List.mem_cons.mp he with h1 | h1
          · subst h1; exact hak
          · exact (ih.mp h) e h1
      · intro h
        have hak : ¬ a.key = k := h a (List.mem_cons_self a rest)
        simp only [lookupNewest, if_neg hak]
        exact ih.mpr (fun e he => h e (List.mem_cons_of_mem a he))

theorem lookupNewest_greatest (es : List Entry) (k : String) (t : Entry)
    (ht : t ∈ es) (hk : t.key = k)
    (h : ∀ e ∈ es, e.key = k → e = t ∨ e.seq < t.seq) :
    lookupNewest es k = some t := by
  induction es with
  | nil => cases ht
  | cons a rest ih =>
      by_cases hak : a.key = k
      · rcases h a (List.mem_cons_self a rest) hak with ha | ha
        · subst ha
          simp only [lookupNewest, if_pos hak]
          cases hr : lookupNewest rest k with
          | none => rfl
          | some b =>
              obtain ⟨hb1, hb2⟩ := lookupNewest_mem rest k b hr
              rcases h b (List.mem_cons_of_mem a hb1) hb2 with hb | hb
              · subst hb; simp
              · simp [if_pos hb]
        · have hat : a ≠ t := by
            intro hh; rw [hh] at ha; omega
          have ht' : t ∈ rest := by
            rcases List.mem_cons.mp ht with h1 | h1
            · exact absurd h1.symm hat
            · exact h1
          have ihr := ih ht' (fun e he hke => h e (List.mem_cons_of_mem a he) hke)
          simp only [lookupNewest, if_pos hak, ihr]
          rw [if_neg (by omega)]
      · have ht' : t ∈ rest := by
          rcases List.mem_cons.mp ht with h1 | h1
          · rw [h1] at hk; exact absurd hk hak
          · exact h1
        have ihr := ih ht' (fun e he hke => h e (List.mem_cons_of_mem a he) hke)
        simp only [lookupNewest, if_neg hak, ihr]

end Engine

namespace Engine

theorem mem_compactRun (snaps : List Nat) (es : List Entry) (e : Entry) :
    e ∈ compactRun snaps es ↔
      lookupNewest es e.key = some e ∧
        ¬(e.val = none ∧ ∀ b ∈ snaps, e.seq < b) := by
  constructor
  · intro h
    simp only [compactRun, List.mem_filterMap] at h
    obtain ⟨k, hk, hf⟩ := h
    cases hn : lookupNewest es k with
    | none =>
        rw [hn] at hf
        exact Option.noConfusion hf
    | some a =>
        simp only [hn] at hf
        by_cases hd : (a.val = none ∧ ∀ b ∈ snaps, a.seq < b)
        · rw [if_pos hd] at hf
          exact Option.noConfusion hf
        · rw [if_neg hd] at hf
          obtain rfl := Option.some.inj hf
          have hkey := (lookupNewest_mem es k a hn).2
          rw [hkey]
          exact ⟨hn, hd⟩
  · rintro ⟨hn, hd⟩
    simp only [compactRun, List.mem_filterMap]
    refine ⟨e.key, ?_, ?_⟩
    · exact List.mem_dedup.mpr
        (List.mem_map_of_mem (fun x => x.key) (lookupNewest_mem es e.key e hn).1)
    · simp only [hn, if_neg hd]

/-- Every entry reachable by a read carries a sequence number at most
the engine's current sequence counter. -/
def entriesBounded (s : EngineState) : Prop :=
  ∀ e ∈ allEntries s, e.seq ≤ s.seq

theorem entriesBounded_step (s : EngineState) (op : Op)
    (h : entriesBounded s) : entriesBounded (step s op) := by
  cases op with
  | put k v =>
      intro e he
      simp only [step, allEntries, List.mem_append, List.mem_singleton] at he
      rcases he with (he | he) | he
      · exact Nat.le_succ_of_le (h e (List.mem_append_left _ he))
      · subst he; exact Nat.le_refl _
      · exact Nat.le_succ_of_le (h e (List.mem_append_right _ he))
  | del k =>
      intro e he
      simp only [step, allEntries, List.mem_append, List.mem_singleton] at he
      rcases he with (he | he) | he
      · exact Nat.le_succ_of_le (h e (List.mem_append_left _ he))
      · subst he; exact Nat.le_refl _
      · exact Nat.le_succ_of_le (h e (List.mem_append_right _ he))
  | flush =>
      intro e he
      simp only [step, allEntries, List.flatten_cons, List.nil_append,
        List.mem_append] at he
      rcases he with he | he
      · exact h e (List.mem_append_left _ he)
      · exact h e (List.mem_append_right _ he)
  | snapshot =>
      intro e he
      exact h e he

theorem entriesBounded_run (ops : List Op) : entriesBounded (run ops) := by
  have hgen : ∀ (l : List Op) (s : EngineState),
      entriesBounded s → entriesBounded (l.foldl step s) := by
    intro l
    induction l with
    | nil => intro s hs; exact hs
    | cons op rest ih => intro s hs; exact ih _ (entriesBounded_step s op hs)
  refine hgen ops init ?_
  intro e he
  cases he

end Engine

namespace Engine

theorem get_ne_err (s : EngineState) (q : String) (b : Option Nat)
    (m : String) : get s q b ≠ .err m := by
  cases h : lookupLE (allEntries s) q (b.getD s.seq) with
  | none => simp [get, h]
  | some e =>
      cases hv : e.val with
      | none => simp [get, h, hv]
      | some v => simp [get, h, hv]

theorem get_absent_notFound (s : EngineState) (q : String) (b : Option Nat)
    (h : ∀ e ∈ allEntries s, e.key ≠ q) : get s q b = .notFound := by
  cases hl : lookupLE (allEntries s) q (b.getD s.seq) with
  | none => simp [get, hl]
  | some e =>
      obtain ⟨m1, m2, _⟩ := lookupLE_mem _ _ _ _ hl
      exact absurd m2 (h e m1)

theorem notFound_not_in_scan (s : EngineState) (lo hi q : String)
    (b : Option Nat) (v : String) (hg : get s q b = .notFound) :
    (q, v) ∉ scan s lo hi b := by
  intro hmem
  simp only [scan, List.mem_filterMap] at hmem
  obtain ⟨p, hp, hf⟩ := hmem
  by_cases hr : lo ≤ p ∧ p < hi
  · rw [if_pos hr] at hf
    cases hgp : get s p b with
    | found w =>
        simp only [hgp] at hf
        have h12 : p = q ∧ w = v := by simpa using hf
        rw [← h12.1] at hg
        rw [hg] at hgp
        exact GetResult.noConfusion hgp
    | notFound =>
        simp only [hgp] at hf
        exact Option.noConfusion hf
    | err m =>
        simp only [hgp] at hf
        exact Option.noConfusion hf
  · rw [if_neg hr] at hf
    exact Option.noConfusion hf

/-- After a delete, a flush of the MemTable and a full compaction, a
read of the deleted key at the latest sequence number still reports the
explicit not-found: the tombstone (or its compacted-away absence) wins
over every older version. -/
theorem tombstone_survives_flush_compact (s : EngineState) (k : String)
    (hb : entriesBounded s) :
    get (compactState (step (step s (.del k)) .flush)) k none = .notFound := by
  have hnew : lookupNewest
      ((s.mem ++ [⟨k, none, s.seq + 1⟩]) ++ s.tables.flatten) k
      = some ⟨k, none, s.seq + 1⟩ := by
    apply lookupNewest_greatest
    · exact List.mem_append_left _
        (List.mem_append_right _ (List.mem_singleton.mpr rfl))
    · rfl
    · intro e he hke
      rcases List.mem_append.mp he with he1 | he1
      · rcases List.mem_append.mp he1 with he2 | he2
        · right
          have := hb e (List.mem_append_left _ he2)
          simpa using Nat.lt_succ_of_le this
        · left; exact List.mem_singleton.mp he2
      · right
        have := hb e (List.mem_append_right _ he1)
        simpa using Nat.lt_succ_of_le this
  have hall : allEntries (compactState (step (step s (.del k)) .flush))
      = compactRun s.snaps
          ((s.mem ++ [⟨k, none, s.seq + 1⟩]) ++ s.tables.flatten) := by
    simp [allEntries, compactState, step]
  cases hle : lookupLE
      (allEntries (compactState (step (step s (.del k)) .flush))) k
      (compactState (step (step s (.del k)) .flush)).seq with
  | none => simp [get, hle]
  | some e =>
      obtain ⟨hmem, hkey, _⟩ := lookupLE_mem _ _ _ _ hle
      rw [hall] at hmem
      obtain ⟨hn, _⟩ := (mem_compactRun _ _ _).mp hmem
      rw [hkey, hnew] at hn
      obtain rfl := Option.some.inj hn
      simp [get, hle]

end Engine

namespace Engine

/-- C7: not-found is a result, not an error — `get` never returns an
error; a key absent from every layer reads as the explicit not-found;
a deleted key never surfaces in a `scan`; and after `delete(k)`
completes, `get(k)` reports not-found even after an intervening flush
and a compaction (whose tombstone garbage collection already respects
the open snapshots). -/
theorem notFound_is_result_not_error (ops : List Op) (k : String) :
    (∀ (s : EngineState) (q : String) (b : Option Nat) (m : String),
        get s q b ≠ .err m) ∧
    (∀ (s : EngineState) (q : String) (b : Option Nat),
        (∀ e ∈ allEntries s, e.key ≠ q) → get s q b = .notFound) ∧
    (∀ (s : EngineState) (lo hi q : String) (b : Option Nat) (v : String),
        get s q b = .notFound → (q, v) ∉ scan s lo hi b) ∧
    get (compactState (step (step (run ops) (.del k)) .flush)) k none
      = .notFound :=
  ⟨get_ne_err, get_absent_notFound, notFound_not_in_scan,
   tombstone_survives_flush_compact (run ops) k (entriesBounded_run ops)⟩

/-- C7 witness: concrete not-found reads — a fresh engine has no key
`"zzz"`, and after `put("x","1")`, `delete("x")`, flush and compaction
the key `"x"` reads as not-found. -/
theorem notFound_is_result_not_error_witness :
    get init "zzz" none = .notFound ∧
    get (compactState (step (step (run [.put "x" "1"]) (.del "x")) .flush))
      "x" none = .notFound :=
  ⟨(notFound_is_result_not_error [] "x").2.1 init "zzz" none (by decide),
   (notFound_is_result_not_error [.put "x" "1"] "x").2.2.2⟩

/-- C8: compaction preserves observable state — for every set of input
tables and every set of open snapshots, the merged output of compacting
the tables presents exactly the same logical key→value mapping (newest
version per key, tombstones and absence both reading as not-found) as
the pre-compaction tables queried directly. -/
theorem compaction_preserves_mapping (ts : List (List Entry))
    (snaps : List Nat) (k : String) :
    tableGet (compactRun snaps ts.flatten) k = tableGet ts.flatten k := by
  generalize ts.flatten = es
  cases hn : lookupNewest es k with
  | none =>
      have hcn : lookupNewest (compactRun snaps es) k = none := by
        apply (lookupNewest_eq_none _ k).mpr
        intro e he hek
        obtain ⟨hne, _⟩ := (mem_compactRun snaps es e).mp he
        rw [hek, hn] at hne
        exact Option.noConfusion hne
      simp [tableGet, hn, hcn]
  | some t =>
      obtain ⟨htm, htk⟩ := lookupNewest_mem es k t hn
      by_cases hd : (t.val = none ∧ ∀ b ∈ snaps, t.seq < b)
      · have hcn : lookupNewest (compactRun snaps es) k = none := by
          apply (lookupNewest_eq_none _ k).mpr
          intro e he hek
          obtain ⟨hne, hnd⟩ := (mem_compactRun snaps es e).mp he
          rw [hek, hn] at hne
          obtain rfl := Option.some.inj hne
          exact hnd hd
        simp [tableGet, hn, hcn, hd.1]
      · have hck : t ∈ compactRun snaps es :=
          (mem_compactRun snaps es t).mpr ⟨by rw [htk]; exact hn, hd⟩
        have hcl : lookupNewest (compactRun snaps es) k = some t := by
          apply lookupNewest_greatest _ k t hck htk
          intro e he hek
          obtain ⟨hne, _⟩ := (mem_compactRun snaps es e).mp he
          rw [hek, hn] at hne
          left
          exact (Option.some.inj hne).symm
        simp [tableGet, hn, hcl]

end Engine
